import Mathlib

/-!
# producer.cc: dependency-aware step scheduler

A shallow embedding of `src/producer.cc`.

* `std::string` is a list of characters (`Str`).
* `size_t` arithmetic is `Nat` arithmetic modulo `2 ^ 64`.
* A `step *` into the `step_list` returned by `plan` is the index of the
  step in that list (the vector is reserved up front and never reallocates,
  so every pointer taken by `emplace_back` keeps denoting the same element).
* `std::function<void(step *)>` is `Option Operation`: `none` is the empty
  function object built from `nullptr`.
-/

namespace Producer

/-- Contents of a `std::string`. -/
abbrev Str := List Char

/-- Width of `size_t`. -/
def SIZE_MAX1 : Nat := 2 ^ 64

/-- The two callables that `plan` stores in a step. -/
inductive Operation where
  | convert_to_intermediate
  | convert_to_output
deriving DecidableEq

/-- Data members of `class step` (lines 31-38). -/
structure step where
  _operation : Option Operation
  _name : Str
  _previous : Str
  _next : Str
  _blocking : List Nat
  _blockers : Nat
  _unblocked : Nat
deriving DecidableEq

abbrev step_list := List step

/-- Apply `f` to element `i` of a list; out of range leaves the list as it is. -/
def modify_at {α : Type} (f : α → α) : List α → Nat → List α
  | [], _ => []
  | x :: xs, 0 => f x :: xs
  | x :: xs, i + 1 => x :: modify_at f xs i

/-- Member `step::add_blocking` (line 21): `_blocking.push_back(step)`. -/
def step.add_blocking (self : step) (s : Nat) : step :=
  { self with _blocking := self._blocking ++ [s] }

/-- Member `step::unblock` (line 22):
`return __sync_add_and_fetch(&_unblocked, 1) >= _blockers;`
The result is the step with the counter written back, and the returned flag. -/
def step.unblock (self : step) : step × Bool :=
  let fetched := (self._unblocked + 1) % SIZE_MAX1
  ({ self with _unblocked := fetched }, decide (fetched ≥ self._blockers))

/-! ## replace_end (lines 100-108) -/

/-- The loop of `replace_end`: the pairs `(i + offset, end[i])` for `i = 0 .. end.size() - 1`,
each index computed in `size_t`. -/
def replace_end_writes_from (offset : Nat) : Nat → Str → List (Nat × Char)
  | _, [] => []
  | i, c :: cs => ((i + offset) % SIZE_MAX1, c) :: replace_end_writes_from offset (i + 1) cs

/-- Every `x[i + offset] = end[i]` that `replace_end(x, end)` performs, in order:
none when `x` is empty, otherwise one per character of `end`, with
`offset = x.size() - end.size()` computed in `size_t`. -/
def replace_end_writes (x end_ : Str) : List (Nat × Char) :=
  if x.isEmpty then []
  else replace_end_writes_from ((x.length + SIZE_MAX1 - end_.length % SIZE_MAX1) % SIZE_MAX1) 0 end_

/-- One assignment `x[k] = c`. A write with `k` outside the string is undefined
behaviour (`none`). -/
def write_char (x : Str) (w : Nat × Char) : Option Str :=
  if w.1 < x.length then some (x.set w.1 w.2) else none

/-- Perform the given writes on `x` in order; `none` as soon as one is outside `x`. -/
def replace_end_loop : Str → List (Nat × Char) → Option Str
  | x, [] => some x
  | x, w :: ws => (write_char x w).bind fun x1 => replace_end_loop x1 ws

/-- The value of `replace_end(x, end)`; `none` when a write is outside `x`. -/
def replace_end (x end_ : Str) : Option Str :=
  replace_end_loop x (replace_end_writes x end_)

/-- All writes of `replace_end(x, end)` are inside `x`. -/
def replace_end_in_bounds (x end_ : Str) : Bool :=
  (replace_end_writes x end_).all (fun w => decide (w.1 < x.length))

/-! ## plan (lines 193-231) -/

/-- The map `steps_by_name` of `plan`: keys with the step they point to. -/
abbrev name_map := List (Str × Nat)

/-- Lookup `std::map::find`. -/
def map_find : name_map → Str → Option Nat
  | [], _ => none
  | (k, v) :: rest, key => if k = key then some v else map_find rest key

/-- Insertion `std::map::emplace`: a key already present keeps its old value. -/
def map_emplace (m : name_map) (key : Str) (v : Nat) : name_map :=
  match map_find m key with
  | some _ => m
  | none => m ++ [(key, v)]

/-- Statement `steps_by_name[key]->add_blocking(step)`: for a key that is not in
the map, `operator[]` yields a null pointer and the call is undefined (`none`). -/
def by_name_add_blocking (m : name_map) (key : Str) (steps : step_list) (s : Nat) :
    Option step_list :=
  match map_find m key with
  | none => none
  | some target => some (modify_at (fun st => st.add_blocking s) steps target)

/-- The extension given to stage-2 names. -/
def caf : Str := ['c', 'a', 'f']

/-- First loop of `plan` (lines 198-206). The list holds the values that `next`
takes in the remaining iterations (`argv[i]`, and `""` in the last one). -/
def plan_intermediate : List Str → Str → Str → step_list → name_map → step_list × name_map
  | [], _, _, steps, m => (steps, m)
  | arg :: rest, name, next, steps, m =>
    let previous := name
    let name := next
    let next := arg
    if name.length ≠ 0 then
      plan_intermediate rest name next
        (steps ++ [⟨some Operation.convert_to_intermediate, name, previous, next, [], 0, 0⟩])
        (map_emplace m name steps.length)
    else
      plan_intermediate rest name next steps m

/-- Body of the second loop for a non-empty `name` (lines 215-223); `none` when one of
the three `replace_end` calls writes outside its string. -/
def plan_output_body (m : name_map) (previous name next : Str) (steps : step_list) :
    Option step_list :=
  let blockers := 1 + (if previous.length ≠ 0 then 1 else 0) + (if next.length ≠ 0 then 1 else 0)
  let s := steps.length
  (replace_end name caf).bind fun name_caf =>
  (replace_end previous caf).bind fun previous_caf =>
  (replace_end next caf).bind fun next_caf =>
  let steps := steps ++ [⟨some Operation.convert_to_output, name_caf, previous_caf, next_caf,
    [], blockers, 0⟩]
  (by_name_add_blocking m name steps s).bind fun steps =>
  (if previous.length ≠ 0 then by_name_add_blocking m previous steps s else some steps).bind
  fun steps =>
  if next.length ≠ 0 then by_name_add_blocking m next steps s else some steps

/-- Second loop of `plan` (lines 210-225). -/
def plan_output (m : name_map) : List Str → Str → Str → step_list → Option step_list
  | [], _, _, steps => some steps
  | arg :: rest, name, next, steps =>
    let previous := name
    let name := next
    let next := arg
    if name.length ≠ 0 then
      (plan_output_body m previous name next steps).bind fun steps =>
        plan_output m rest name next steps
    else
      plan_output m rest name next steps

/-- Last loop of `plan` (lines 227-229): `steps[argc - 1 + i].add_blocking(step)` for
`n` more values of `i`. An index past the end of the vector is undefined (`none`). -/
def plan_join_loop (argc s : Nat) : Nat → Nat → step_list → Option step_list
  | 0, _, steps => some steps
  | n + 1, i, steps =>
    if argc - 1 + i < steps.length then
      plan_join_loop argc s n (i + 1) (modify_at (fun st => st.add_blocking s) steps (argc - 1 + i))
    else none

/-- Function `plan(argc, argv)`, with `items = argv[1 .. argc - 1]` and
`argc = items.length + 1`; `none` when the source has undefined behaviour (a write outside
a string in `replace_end`, a null entry of `steps_by_name`, an index outside `steps`).
The `int` arithmetic on `argc` is not reduced: `argc` is the number of arguments of a
process and `(argc - 1) * 2 + 1` stays far below `2 ^ 31`. -/
def plan (items : List Str) : Option step_list :=
  let argc := items.length + 1
  let nexts := items ++ [[]]
  let r := plan_intermediate nexts [] [] [] []
  (plan_output r.2 nexts [] [] r.1).bind fun steps =>
    let s := steps.length
    plan_join_loop argc s (argc - 1) 0 (steps ++ [⟨none, [], [], [], [], argc - 1, 0⟩])

/-! ## Mailboxes and context (lines 43-98) -/

/-- Modelled from the spec: the bounded mailbox behind `message_queue` (its source,
`message_queue/message_queue.h`, is not in this repository). A pool of `max_depth`
slots; a slot is taken by an allocate and given back by a free; written messages
are read in FIFO order. -/
structure message_queue (α : Type) where
  max_depth : Nat
  allocated : Nat
  messages : List α

/-- Modelled from the spec: `message_queue_init`, an empty mailbox of the given capacity. -/
def message_queue_init {α : Type} (max_depth : Nat) : message_queue α :=
  ⟨max_depth, 0, []⟩

/-- Modelled from the spec: `message_queue_message_alloc` (non-blocking allocate), a slot
or "none" when the pool is exhausted. The blocking variant waits while this is `none`. -/
def message_queue_message_alloc {α : Type} (q : message_queue α) : Option (message_queue α) :=
  if q.allocated < q.max_depth then some { q with allocated := q.allocated + 1 } else none

/-- Modelled from the spec: `message_queue_write`, publish a filled slot as the newest message. -/
def message_queue_write {α : Type} (q : message_queue α) (x : α) : message_queue α :=
  { q with messages := q.messages ++ [x] }

/-- Modelled from the spec: `message_queue_tryread`, the oldest message or "none".
The blocking `message_queue_read` waits while this is `none`. -/
def message_queue_tryread {α : Type} (q : message_queue α) : Option (α × message_queue α) :=
  match q.messages with
  | [] => none
  | x :: rest => some (x, { q with messages := rest })

/-- Modelled from the spec: `message_queue_message_free`, return a consumed slot to the pool. -/
def message_queue_message_free {α : Type} (q : message_queue α) : message_queue α :=
  { q with allocated := q.allocated - 1 }

/-- Data members of `class context`. A dispatch message is a `step *` that may be null
(`none`, the shutdown sentinel); a backchannel message is always the address of a step,
because the only writer is `context::unblock` on entries of successor lists. -/
structure context where
  dispatch : message_queue (Option Nat)
  backchannel : message_queue Nat

/-- Constructor `context::context(cpus)` (lines 45-48). -/
def context.init (cpus : Nat) : context :=
  ⟨message_queue_init cpus, message_queue_init cpus⟩

/-- Member `context::get_unblocked` (lines 55-62): non-blocking read of the backchannel,
freeing the slot that was read. -/
def context.get_unblocked (c : context) : Option (Nat × context) :=
  match message_queue_tryread c.backchannel with
  | none => none
  | some (u, q) => some (u, { c with backchannel := message_queue_message_free q })

/-- Member `context::wait_for_unblocked` (line 64): blocking read of the backchannel,
freeing the slot that was read; `none` means the caller is blocked in the read. -/
def context.wait_for_unblocked (c : context) : Option (Nat × context) :=
  match message_queue_tryread c.backchannel with
  | none => none
  | some (u, q) => some (u, { c with backchannel := message_queue_message_free q })

/-- Member `context::queue` (lines 66-71): blocking allocate on dispatch, then write.
`none` means the caller is blocked in the allocate. -/
def context.queue (c : context) (s : Option Nat) : Option context :=
  match message_queue_message_alloc c.dispatch with
  | none => none
  | some q => some { c with dispatch := message_queue_write q s }

/-- Member `context::unblock` (lines 73-82): non-blocking allocate on the backchannel;
on success write the step and return true, otherwise return false. -/
def context.unblock (c : context) (s : Nat) : context × Bool :=
  match message_queue_message_alloc c.backchannel with
  | some q => ({ c with backchannel := message_queue_write q s }, true)
  | none => (c, false)

/-- Member `context::wait_for_step` (line 84): blocking read of dispatch; `none` means the
caller is blocked. -/
def context.wait_for_step (c : context) : Option (Option Nat × context) :=
  match message_queue_tryread c.dispatch with
  | none => none
  | some (m, q) => some (m, { c with dispatch := q })

/-- Member `context::free_step` (line 86). -/
def context.free_step (c : context) : context :=
  { c with dispatch := message_queue_message_free c.dispatch }

/-! ## worker (lines 233-255) -/

/-- The drain loop of `worker` (lines 247-252) on the local buffer `unblocked`, run with no
other thread acting in between: the context and the buffer when the loop is left. -/
def worker_drain (c : context) : List Nat → context × List Nat
  | [] => (c, [])
  | blocking :: rest =>
    let r := c.unblock blocking
    if r.2 then worker_drain r.1 rest else (r.1, blocking :: rest)

/-! ## The threads of `main` and `worker` as an interleaving machine

One driver (the thread of `main`, lines 274-294) and `cpus` workers (lines 233-255).
Every transition is one mailbox call or one statement of the source; a thread that
would wait inside a blocking call has no transition. -/

/-- Where the driver is in `main`. -/
inductive driver_pc where
  /-- line 274-276: loop head for element `i` of `steps` -/
  | seed (i : Nat)
  /-- line 277: about to call `get_unblocked` -/
  | seed_drain (i : Nat)
  /-- line 278: about to call `queue(unblocked)` -/
  | seed_requeue (i : Nat) (unblocked : Nat)
  /-- line 280: about to call `queue(&step)` -/
  | seed_queue (i : Nat)
  /-- line 282: about to call `wait_for_unblocked` -/
  | pump
  /-- line 284: about to call `queue(unblocked)` -/
  | pump_queue (unblocked : Nat)
  /-- line 286-287: about to queue sentinel number `i` -/
  | broadcast (i : Nat)
  /-- line 292-294: joining the workers -/
  | join
deriving DecidableEq

/-- Where a worker is in `worker`. -/
inductive worker_pc where
  /-- line 237: about to call `wait_for_step` -/
  | wait
  /-- line 242: about to invoke the operation of the step it holds -/
  | run (s : Nat)
  /-- lines 243-246: about to visit entry `j` of the successor list of `s` -/
  | signal (s : Nat) (j : Nat)
  /-- lines 247-252: at the head of the drain loop -/
  | drain (s : Nat)
  /-- line 253: about to free the dispatch slot -/
  | free (s : Nat)
  /-- line 240: returned -/
  | returned
deriving DecidableEq

/-- A worker thread: its position and its local deque `unblocked`. -/
structure worker_state where
  pc : worker_pc
  unblocked : List Nat
deriving DecidableEq

/-- The whole process. `terminated` is set when a worker invokes an empty
`std::function` (this throws `std::bad_function_call` out of a thread). -/
structure machine where
  cpus : Nat
  steps : step_list
  ctx : context
  driver : driver_pc
  workers : List worker_state
  invoked : List Nat
  terminated : Bool

/-- The state in which `main` enters its first loop: the plan is built and all workers
are started. -/
def machine.init (cpus : Nat) (steps : step_list) : machine :=
  ⟨cpus, steps, context.init cpus, driver_pc.seed 0,
    List.replicate cpus ⟨worker_pc.wait, []⟩, [], false⟩

/-- One transition of the driver; `none` when it is waiting or has finished. -/
def driver_step (m : machine) : Option machine :=
  match m.driver with
  | driver_pc.seed i =>
    match m.steps.get? i with
    | none => some { m with driver := driver_pc.pump }
    | some st =>
      if st._blockers ≠ 0 then some { m with driver := driver_pc.pump }
      else some { m with driver := driver_pc.seed_drain i }
  | driver_pc.seed_drain i =>
    match m.ctx.get_unblocked with
    | none => some { m with driver := driver_pc.seed_queue i }
    | some (u, c) => some { m with ctx := c, driver := driver_pc.seed_requeue i u }
  | driver_pc.seed_requeue i u =>
    (m.ctx.queue (some u)).map fun c => { m with ctx := c, driver := driver_pc.seed_drain i }
  | driver_pc.seed_queue i =>
    (m.ctx.queue (some i)).map fun c => { m with ctx := c, driver := driver_pc.seed (i + 1) }
  | driver_pc.pump =>
    match m.ctx.wait_for_unblocked with
    | none => none
    | some (u, c) =>
      match (m.steps.get? u).bind step._operation with
      | some _ => some { m with ctx := c, driver := driver_pc.pump_queue u }
      | none => some { m with ctx := c, driver := driver_pc.broadcast 0 }
  | driver_pc.pump_queue u =>
    (m.ctx.queue (some u)).map fun c => { m with ctx := c, driver := driver_pc.pump }
  | driver_pc.broadcast i =>
    if i < m.cpus then
      (m.ctx.queue none).map fun c => { m with ctx := c, driver := driver_pc.broadcast (i + 1) }
    else some { m with driver := driver_pc.join }
  | driver_pc.join => none

/-- One transition of a worker with local state `w`: the new machine (without the
worker list updated) and the worker's new local state; `none` when it is waiting or
has returned. -/
def worker_step (m : machine) (w : worker_state) : Option (machine × worker_state) :=
  match w.pc with
  | worker_pc.wait =>
    match m.ctx.wait_for_step with
    | none => none
    | some (none, c) => some ({ m with ctx := c.free_step }, { w with pc := worker_pc.returned })
    | some (some s, c) => some ({ m with ctx := c }, { w with pc := worker_pc.run s })
  | worker_pc.run s =>
    match (m.steps.get? s).bind step._operation with
    | none => some ({ m with terminated := true }, w)
    | some _ => some ({ m with invoked := m.invoked ++ [s] }, { w with pc := worker_pc.signal s 0 })
  | worker_pc.signal s j =>
    match ((m.steps.get? s).map step._blocking).bind (fun l => l.get? j) with
    | none => some (m, { w with pc := worker_pc.drain s })
    | some blocking =>
      match m.steps.get? blocking with
      | none => none
      | some st =>
        let r := st.unblock
        some ({ m with steps := m.steps.set blocking r.1 },
          { pc := worker_pc.signal s (j + 1),
            unblocked := if r.2 then w.unblocked ++ [blocking] else w.unblocked })
  | worker_pc.drain s =>
    match w.unblocked with
    | [] => some (m, { w with pc := worker_pc.free s })
    | blocking :: rest =>
      let r := m.ctx.unblock blocking
      if r.2 then some ({ m with ctx := r.1 }, { pc := worker_pc.drain s, unblocked := rest })
      else some ({ m with ctx := r.1 }, { w with pc := worker_pc.free s })
  | worker_pc.free _ => some ({ m with ctx := m.ctx.free_step }, { w with pc := worker_pc.wait })
  | worker_pc.returned => none

/-- The threads of the process. -/
inductive thread where
  | driver
  | worker (i : Nat)
deriving DecidableEq

/-- One transition of the machine by the given thread. Nothing moves once the process
has terminated. -/
def machine.step (m : machine) (t : thread) : Option machine :=
  if m.terminated then none
  else
    match t with
    | thread.driver => driver_step m
    | thread.worker i =>
      match m.workers.get? i with
      | none => none
      | some w => (worker_step m w).map fun r => { r.1 with workers := r.1.workers.set i r.2 }

/-- Run a schedule: the threads that move, in order. -/
def machine.run (m : machine) : List thread → Option machine
  | [] => some m
  | t :: rest => (m.step t).bind fun m1 => m1.run rest

/-- The driver waits inside a blocking backchannel read or a blocking dispatch allocate. -/
def driver_blocked (m : machine) : Bool :=
  match m.driver with
  | driver_pc.pump => m.ctx.wait_for_unblocked.isNone
  | driver_pc.seed_requeue _ _ => (message_queue_message_alloc m.ctx.dispatch).isNone
  | driver_pc.seed_queue _ => (message_queue_message_alloc m.ctx.dispatch).isNone
  | driver_pc.pump_queue _ => (message_queue_message_alloc m.ctx.dispatch).isNone
  | _ => false

/-- The worker waits inside the blocking dispatch read. -/
def worker_blocked (m : machine) (w : worker_state) : Bool :=
  decide (w.pc = worker_pc.wait) && m.ctx.wait_for_step.isNone

/-- The circular wait: the driver and every worker are inside a blocking call, and no
shutdown sentinel has been sent. -/
def machine.stuck (m : machine) : Bool :=
  !m.terminated && driver_blocked m && m.workers.all (worker_blocked m)


/-! ## Closed form of `plan` on non-empty items (used in the proofs) -/

/-- The values `(previous, name, next)` seen by a loop of `plan` in the iterations that
find a non-empty `name`, when the current item is `a`, the one before it is `p` and
the items after it are `tl`. -/
def windows : Str → Str → List Str → List (Str × Str × Str)
  | p, a, [] => [(p, a, [])]
  | p, a, b :: tl => (p, a, b) :: windows a b tl

/-- The step emplaced by the first loop for a window. -/
def intermediate_step (w : Str × Str × Str) : step :=
  ⟨some Operation.convert_to_intermediate, w.2.1, w.1, w.2.2, [], 0, 0⟩

/-- The step emplaced by the second loop for a window whose three `replace_end` calls
stay inside their strings. -/
def output_step (w : Str × Str × Str) : step :=
  ⟨some Operation.convert_to_output, (replace_end w.2.1 caf).getD [],
    (replace_end w.1 caf).getD [], (replace_end w.2.2 caf).getD [], [],
    1 + (if w.1.length ≠ 0 then 1 else 0) + (if w.2.2.length ≠ 0 then 1 else 0), 0⟩

/-- The join step for `n` items. -/
def join_step (n : Nat) : step := ⟨none, [], [], [], [], n, 0⟩

/-- The map after emplacing the given names for the steps `k, k + 1, ...`. -/
def map_after : name_map → Nat → List Str → name_map
  | m, _, [] => m
  | m, k, a :: tl => map_after (map_emplace m a k) (k + 1) tl

/-- Position of the first occurrence of `x` in a list of names; only used for names that
occur in the list. -/
def first_index (x : Str) : List Str → Nat
  | [] => 0
  | a :: tl => if a = x then 0 else first_index x tl + 1

/-- The step a name is mapped to (0 for a name that is not in the map). -/
def target_of (m : name_map) (x : Str) : Nat := (map_find m x).getD 0

/-- The `add_blocking` calls of one iteration of the second loop, as pairs
`(stage-1 step, new step)`, in program order. -/
def edges_of (m : name_map) (k : Nat) (w : Str × Str × Str) : List (Nat × Nat) :=
  [(target_of m w.2.1, k)] ++ (if w.1.length ≠ 0 then [(target_of m w.1, k)] else [])
    ++ (if w.2.2.length ≠ 0 then [(target_of m w.2.2, k)] else [])

/-- The `add_blocking` calls of the second loop over the given windows, the first of
which creates step `k`. -/
def edges_from (m : name_map) : Nat → List (Str × Str × Str) → List (Nat × Nat)
  | _, [] => []
  | k, w :: ws => edges_of m k w ++ edges_from m (k + 1) ws

/-- Perform a list of `add_blocking` calls. -/
def apply_edges (steps : step_list) (es : List (Nat × Nat)) : step_list :=
  es.foldl (fun acc e => modify_at (fun st => st.add_blocking e.2) acc e.1) steps

/-- The `add_blocking` calls of the second loop of `plan` for the items `a :: tl`. -/
def plan_edges (a : Str) (tl : List Str) : List (Nat × Nat) :=
  edges_from (map_after [] 0 (a :: tl)) (tl.length + 1) (windows [] a tl)

/-- The `add_blocking` calls of the last loop of `plan` for `n` items. -/
def join_edges (n : Nat) : List (Nat × Nat) :=
  (List.range n).map fun d => (n + d, 2 * n)

/-- The list that `plan` builds for the non-empty items `a :: tl`. -/
def plan_closed (a : Str) (tl : List Str) : step_list :=
  apply_edges
    (apply_edges ((windows [] a tl).map intermediate_step ++ (windows [] a tl).map output_step)
      (plan_edges a tl) ++ [join_step (tl.length + 1)])
    (join_edges (tl.length + 1))

/-! ## Delivery of completion signals -/

/-- Sample file names. -/
def track_a : Str := ['a', '.', 'w', 'a', 'v']

def track_b : Str := ['b', '.', 'w', 'a', 'v']

def track_c : Str := ['c', '.', 'w', 'a', 'v']

/-- A schedule for two workers and the items `a.wav b.wav c.wav`: worker 1 runs the
stage-1 steps of `b` and `c` while worker 0 is still in the stage-1 step of `a`; worker 0
then finds two steps ready with one backchannel slot left; the driver requeues the two
reported steps and worker 1 takes both. -/
def deadlock_schedule : List thread :=
  [thread.driver, thread.driver, thread.driver, thread.driver, thread.driver, thread.driver,
   thread.driver, thread.driver,
   thread.worker 0, thread.worker 1,
   thread.worker 1, thread.worker 1, thread.worker 1, thread.worker 1, thread.worker 1,
   thread.worker 1, thread.worker 1,
   thread.driver, thread.driver,
   thread.worker 1, thread.worker 1, thread.worker 1, thread.worker 1, thread.worker 1,
   thread.worker 1, thread.worker 1, thread.worker 1,
   thread.worker 0, thread.worker 0, thread.worker 0, thread.worker 0, thread.worker 0,
   thread.worker 0, thread.worker 0,
   thread.driver, thread.driver, thread.driver, thread.driver,
   thread.worker 1, thread.worker 1, thread.worker 1, thread.worker 1, thread.worker 1,
   thread.worker 1,
   thread.worker 1, thread.worker 1, thread.worker 1, thread.worker 1, thread.worker 1,
   thread.worker 1]


/-! ## replace_end -/

theorem replace_end_loop_some (ws : List (Nat × Char)) (x : Str)
    (h : ∀ w ∈ ws, w.1 < x.length) :
    ∃ v, replace_end_loop x ws = some v := by
  induction ws generalizing x with
  | nil => exact ⟨x, rfl⟩
  | cons w ws ih =>
    have hw : w.1 < x.length := h w (List.mem_cons_self _ _)
    have hrest : ∀ w1 ∈ ws, w1.1 < (x.set w.1 w.2).length := by
      intro w1 h1
      rw [List.length_set]
      exact h w1 (List.mem_cons_of_mem _ h1)
    obtain ⟨v, hv⟩ := ih (x.set w.1 w.2) hrest
    exact ⟨v, by simp [replace_end_loop, write_char, hw, hv]⟩

theorem replace_end_writes_in_bounds (x : Str) (h3 : 3 ≤ x.length) :
    ∀ w ∈ replace_end_writes x caf, w.1 < x.length := by
  have hne : x.isEmpty = false := by
    cases x with
    | nil => simp at h3
    | cons c cs => rfl
  have hM : 3 % SIZE_MAX1 = 3 := by decide
  have hoff : (x.length + SIZE_MAX1 - 3 % SIZE_MAX1) % SIZE_MAX1 ≤ x.length - 3 := by
    have h1 : x.length + SIZE_MAX1 - 3 = x.length - 3 + SIZE_MAX1 := by omega
    rw [hM, h1, Nat.add_mod_right]
    exact Nat.mod_le _ _
  intro w hw
  unfold replace_end_writes at hw
  rw [hne] at hw
  simp only [Bool.false_eq_true, if_false, caf, List.length_cons, List.length_nil,
    Nat.zero_add, Nat.reduceAdd, replace_end_writes_from, List.mem_cons, List.mem_nil_iff,
    or_false] at hw
  have b0 := Nat.mod_le ((x.length + SIZE_MAX1 - 3 % SIZE_MAX1) % SIZE_MAX1) SIZE_MAX1
  have b1 := Nat.mod_le (1 + (x.length + SIZE_MAX1 - 3 % SIZE_MAX1) % SIZE_MAX1) SIZE_MAX1
  have b2 := Nat.mod_le (2 + (x.length + SIZE_MAX1 - 3 % SIZE_MAX1) % SIZE_MAX1) SIZE_MAX1
  rcases hw with hw | hw | hw <;> rw [hw] <;> simp only <;> omega

theorem replace_end_some (x : Str) (h3 : 3 ≤ x.length) : ∃ v, replace_end x caf = some v :=
  replace_end_loop_some _ x (replace_end_writes_in_bounds x h3)

theorem replace_end_nil : replace_end [] caf = some [] := by
  decide

/-- On a name of at least three characters, `replace_end(x, "caf")` keeps the length,
keeps all characters before the last three, ends in `"caf"`, and writes inside `x` only. -/
theorem replace_end_long_name (x : Str) (h3 : 3 ≤ x.length) (hmax : x.length < SIZE_MAX1) :
    replace_end x caf = some (x.take (x.length - 3) ++ caf) ∧
      replace_end_in_bounds x caf = true := by
  obtain ⟨c1, c2, c3, hlast⟩ : ∃ c1 c2 c3, x.drop (x.length - 3) = [c1, c2, c3] := by
    apply List.length_eq_three.mp
    rw [List.length_drop]
    omega
  have hx : x = x.take (x.length - 3) ++ [c1, c2, c3] := by
    rw [← hlast, List.take_append_drop]
  generalize hpre : x.take (x.length - 3) = pre at hx
  have hn : x.length - 3 = pre.length := by
    rw [← hpre, List.length_take]
    omega
  subst hx
  have hlen : (pre ++ [c1, c2, c3]).length = pre.length + 3 := by simp
  rw [hlen] at hmax
  have hne : (pre ++ [c1, c2, c3]).isEmpty = false := by
    cases pre <;> rfl
  have hoff : (pre.length + 3 + SIZE_MAX1 - 3 % SIZE_MAX1) % SIZE_MAX1 = pre.length := by
    have h3m : 3 % SIZE_MAX1 = 3 := Nat.mod_eq_of_lt (by omega)
    rw [h3m]
    have : pre.length + 3 + SIZE_MAX1 - 3 = pre.length + SIZE_MAX1 := by omega
    rw [this, Nat.add_mod_right]
    exact Nat.mod_eq_of_lt (by omega)
  have h0 : (0 + pre.length) % SIZE_MAX1 = pre.length := by
    rw [Nat.zero_add]
    exact Nat.mod_eq_of_lt (by omega)
  have h1 : (0 + 1 + pre.length) % SIZE_MAX1 = pre.length + 1 := by
    rw [Nat.mod_eq_of_lt (by omega)]
    omega
  have h2 : (0 + 1 + 1 + pre.length) % SIZE_MAX1 = pre.length + 2 := by
    rw [Nat.mod_eq_of_lt (by omega)]
    omega
  have hwrites : replace_end_writes (pre ++ [c1, c2, c3]) caf =
      [(pre.length, 'c'), (pre.length + 1, 'a'), (pre.length + 2, 'f')] := by
    unfold replace_end_writes
    rw [hne, hlen]
    simp only [Bool.false_eq_true, if_false, caf, List.length_cons, List.length_nil,
      Nat.zero_add, Nat.reduceAdd]
    rw [hoff]
    simp only [replace_end_writes_from, h0, h1, h2]
  constructor
  · unfold replace_end
    rw [hwrites]
    simp [replace_end_loop, write_char, caf]
  · unfold replace_end_in_bounds
    rw [hwrites, hlen]
    simp

theorem replace_end_long_name_witness :
    replace_end track_a caf = some (track_a.take (track_a.length - 3) ++ caf) ∧
      replace_end_in_bounds track_a caf = true :=
  replace_end_long_name track_a (by decide) (by decide)


/-! ## Lemmas on lists and on the name map -/

theorem modify_at_length {α : Type} (f : α → α) (l : List α) (i : Nat) :
    (modify_at f l i).length = l.length := by
  induction l generalizing i with
  | nil => rfl
  | cons x xs ih => cases i <;> simp [modify_at, ih]

theorem modify_at_getElem? {α : Type} (f : α → α) (l : List α) (i j : Nat) :
    (modify_at f l i)[j]? = if i = j then l[j]?.map f else l[j]? := by
  induction l generalizing i j with
  | nil => simp [modify_at]
  | cons x xs ih =>
    cases i with
    | zero => cases j <;> simp [modify_at]
    | succ i => cases j <;> simp [modify_at, ih]

theorem modify_at_append {α : Type} (f : α → α) (l r : List α) (i : Nat) (h : i < l.length) :
    modify_at f (l ++ r) i = modify_at f l i ++ r := by
  induction l generalizing i with
  | nil => simp at h
  | cons x xs ih =>
    cases i with
    | zero => simp [modify_at]
    | succ i =>
      simp only [List.length_cons, Nat.add_lt_add_iff_right] at h
      simp [modify_at, ih i h]

theorem apply_edges_length (steps : step_list) (es : List (Nat × Nat)) :
    (apply_edges steps es).length = steps.length := by
  induction es generalizing steps with
  | nil => rfl
  | cons e es ih =>
    simp only [apply_edges, List.foldl_cons] at ih ⊢
    rw [ih, modify_at_length]

theorem apply_edges_append_edges (steps : step_list) (es fs : List (Nat × Nat)) :
    apply_edges (apply_edges steps es) fs = apply_edges steps (es ++ fs) := by
  simp [apply_edges, List.foldl_append]

theorem apply_edges_append_steps (steps more : step_list) (es : List (Nat × Nat))
    (h : ∀ e ∈ es, e.1 < steps.length) :
    apply_edges (steps ++ more) es = apply_edges steps es ++ more := by
  induction es generalizing steps with
  | nil => rfl
  | cons e es ih =>
    have he : e.1 < steps.length := h e (List.mem_cons_self _ _)
    simp only [apply_edges, List.foldl_cons] at ih ⊢
    rw [modify_at_append _ _ _ _ he]
    apply ih
    intro e1 h1
    rw [modify_at_length]
    exact h e1 (List.mem_cons_of_mem _ h1)

theorem apply_edges_getElem? (steps : step_list) (es : List (Nat × Nat)) (j : Nat) :
    (apply_edges steps es)[j]? = steps[j]?.map (fun st =>
      { st with _blocking := st._blocking ++ (es.filter (fun e => e.1 = j)).map Prod.snd }) := by
  induction es generalizing steps with
  | nil =>
    cases h : steps[j]? <;> simp [apply_edges, h]
  | cons e es ih =>
    simp only [apply_edges, List.foldl_cons] at ih ⊢
    rw [ih, modify_at_getElem?]
    by_cases he : e.1 = j
    · cases h : steps[j]? <;> simp [he, h, step.add_blocking]
    · cases h : steps[j]? <;> simp [he, h]


theorem map_find_append (m : name_map) (key x : Str) (v : Nat) :
    map_find (m ++ [(key, v)]) x =
      match map_find m x with
      | some w => some w
      | none => if key = x then some v else none := by
  induction m with
  | nil => simp [map_find]
  | cons kv rest ih =>
    obtain ⟨k, w⟩ := kv
    by_cases hk : k = x <;> simp [map_find, hk, ih]

theorem map_find_emplace (m : name_map) (key x : Str) (v : Nat) :
    map_find (map_emplace m key v) x =
      match map_find m x with
      | some w => some w
      | none => if key = x then some v else none := by
  unfold map_emplace
  cases hkey : map_find m key with
  | none => simp [map_find_append]
  | some w =>
    cases hx : map_find m x with
    | some u => simp
    | none =>
      have : key ≠ x := by
        intro h
        rw [h, hx] at hkey
        cases hkey
      simp [this]

theorem map_find_after (l : List Str) (m : name_map) (k : Nat) (x : Str) :
    map_find (map_after m k l) x =
      match map_find m x with
      | some w => some w
      | none => if x ∈ l then some (k + first_index x l) else none := by
  induction l generalizing m k with
  | nil => cases h : map_find m x <;> simp [map_after, h]
  | cons a tl ih =>
    simp only [map_after]
    rw [ih, map_find_emplace]
    cases h : map_find m x with
    | some w => simp
    | none =>
      by_cases ha : a = x
      · subst ha
        simp [first_index]
      · have hxa : x ≠ a := fun h1 => ha h1.symm
        simp only [ha, if_false, List.mem_cons, hxa, false_or]
        by_cases hx : x ∈ tl
        · simp only [hx, if_true, first_index, ha, if_false]
          congr 1
          omega
        · simp [hx]

theorem map_find_after_mem (l : List Str) (x : Str) (hx : x ∈ l) :
    map_find (map_after [] 0 l) x = some (first_index x l) := by
  rw [map_find_after]
  simp [map_find, hx]

theorem target_of_after_mem (l : List Str) (x : Str) (hx : x ∈ l) :
    target_of (map_after [] 0 l) x = first_index x l := by
  simp [target_of, map_find_after_mem l x hx]

/-! ## The windows of the loops -/

theorem windows_length (tl : List Str) (p a : Str) : (windows p a tl).length = tl.length + 1 := by
  induction tl generalizing p a with
  | nil => rfl
  | cons b tl ih => simp [windows, ih]

theorem windows_getElem? (tl : List Str) (p a : Str) (i : Nat) (hi : i < tl.length + 1) :
    (windows p a tl)[i]? =
      some ((p :: a :: tl)[i]?.getD [], (a :: tl)[i]?.getD [], (tl ++ [[]])[i]?.getD []) := by
  induction tl generalizing p a i with
  | nil =>
    have : i = 0 := by simpa using hi
    subst this
    simp [windows]
  | cons b tl ih =>
    cases i with
    | zero => simp [windows]
    | succ i =>
      have hi1 : i < tl.length + 1 := by simpa using hi
      simp only [windows, List.getElem?_cons_succ, List.cons_append]
      rw [ih a b i hi1]

/-! ## The loops of `plan` on non-empty items -/

theorem plan_intermediate_windows (tl : List Str) (p a : Str) (steps : step_list) (m : name_map)
    (ha : a ≠ []) (htl : ∀ x ∈ tl, x ≠ []) :
    plan_intermediate (tl ++ [[]]) p a steps m =
      (steps ++ (windows p a tl).map intermediate_step, map_after m steps.length (a :: tl)) := by
  induction tl generalizing p a steps m with
  | nil =>
    have hl : a.length ≠ 0 := by simpa using ha
    simp [plan_intermediate, windows, intermediate_step, map_after, hl]
  | cons b tl ih =>
    have hl : a.length ≠ 0 := by simpa using ha
    have hb : b ≠ [] := htl b (List.mem_cons_self _ _)
    have htl1 : ∀ x ∈ tl, x ≠ [] := fun x hx => htl x (List.mem_cons_of_mem _ hx)
    rw [List.cons_append, plan_intermediate]
    simp only [hl, ne_eq, not_false_eq_true, if_true]
    rw [ih a b _ _ hb htl1]
    simp [windows, intermediate_step, map_after]

theorem plan_output_body_eq (m : name_map) (p a n : Str) (steps : step_list)
    (ha : ∃ t, map_find m a = some t)
    (hp : p ≠ [] → ∃ t, map_find m p = some t)
    (hn : n ≠ [] → ∃ t, map_find m n = some t)
    (hra : ∃ v, replace_end a caf = some v)
    (hrp : ∃ v, replace_end p caf = some v)
    (hrn : ∃ v, replace_end n caf = some v) :
    plan_output_body m p a n steps =
      some (apply_edges (steps ++ [output_step (p, a, n)]) (edges_of m steps.length (p, a, n))) := by
  obtain ⟨ta, hta⟩ := ha
  obtain ⟨va, hva⟩ := hra
  obtain ⟨vp, hvp⟩ := hrp
  obtain ⟨vn, hvn⟩ := hrn
  unfold plan_output_body
  simp only [hva, hvp, hvn, by_name_add_blocking, hta, Option.some_bind]
  by_cases hpe : p = []
  · have hpl : p.length = 0 := by simp [hpe]
    by_cases hne : n = []
    · have hnl : n.length = 0 := by simp [hne]
      simp [apply_edges, edges_of, output_step, target_of, hta, hpl, hnl, hva, hvp, hvn]
    · obtain ⟨tn, htn⟩ := hn hne
      have hnl : n.length ≠ 0 := by simpa using hne
      simp [apply_edges, edges_of, output_step, target_of, hta, htn, hpl, hnl, hva, hvp, hvn]
  · obtain ⟨tp, htp⟩ := hp hpe
    have hpl : p.length ≠ 0 := by simpa using hpe
    by_cases hne : n = []
    · have hnl : n.length = 0 := by simp [hne]
      simp [apply_edges, edges_of, output_step, target_of, hta, htp, hpl, hnl, hva, hvp, hvn]
    · obtain ⟨tn, htn⟩ := hn hne
      have hnl : n.length ≠ 0 := by simpa using hne
      simp [apply_edges, edges_of, output_step, target_of, hta, htp, htn, hpl, hnl, hva,
        hvp, hvn]

theorem edges_of_target_lt (m : name_map) (k n0 : Nat) (p a n : Str)
    (ha : ∃ t, map_find m a = some t ∧ t < n0)
    (hp : p ≠ [] → ∃ t, map_find m p = some t ∧ t < n0)
    (hn : n ≠ [] → ∃ t, map_find m n = some t ∧ t < n0) :
    ∀ e ∈ edges_of m k (p, a, n), e.1 < n0 := by
  intro e he
  obtain ⟨ta, hta, hlt⟩ := ha
  simp only [edges_of, List.mem_append, List.mem_singleton] at he
  rcases he with (he | he) | he
  · subst he
    simpa [target_of, hta] using hlt
  · by_cases hpe : p = []
    · simp [hpe] at he
    · obtain ⟨tp, htp, hlt1⟩ := hp hpe
      have hpl : p.length ≠ 0 := by simpa using hpe
      simp only [hpl, ne_eq, not_false_eq_true, if_true, List.mem_singleton] at he
      subst he
      simpa [target_of, htp] using hlt1
  · by_cases hne : n = []
    · simp [hne] at he
    · obtain ⟨tn, htn, hlt1⟩ := hn hne
      have hnl : n.length ≠ 0 := by simpa using hne
      simp only [hnl, ne_eq, not_false_eq_true, if_true, List.mem_singleton] at he
      subst he
      simpa [target_of, htn] using hlt1


theorem plan_output_windows (m : name_map) (n0 : Nat) (tl : List Str) (p a : Str)
    (steps : step_list) (ha : a ≠ []) (htl : ∀ x ∈ tl, x ≠ []) (hn0 : n0 ≤ steps.length)
    (hm : ∀ x, x ∈ p :: a :: tl → x ≠ [] → ∃ t, map_find m x = some t ∧ t < n0)
    (hr : ∀ x, x ∈ p :: a :: tl → ∃ v, replace_end x caf = some v) :
    plan_output m (tl ++ [[]]) p a steps =
      some (apply_edges (steps ++ (windows p a tl).map output_step)
        (edges_from m steps.length (windows p a tl))) := by
  induction tl generalizing p a steps with
  | nil =>
    have hl : a.length ≠ 0 := by simpa using ha
    have hbody := plan_output_body_eq m p a [] steps
      (by
        obtain ⟨t, ht, _⟩ := hm a (by simp) ha
        exact ⟨t, ht⟩)
      (fun hp => by
        obtain ⟨t, ht, _⟩ := hm p (by simp) hp
        exact ⟨t, ht⟩)
      (fun h => absurd rfl h) (hr a (by simp)) (hr p (by simp)) ⟨[], replace_end_nil⟩
    rw [List.nil_append, plan_output]
    simp only [hl, ne_eq, not_false_eq_true, if_true, hbody, Option.some_bind, plan_output]
    simp [windows, edges_from]
  | cons b tl ih =>
    have hl : a.length ≠ 0 := by simpa using ha
    have hb : b ≠ [] := htl b (List.mem_cons_self _ _)
    have htl1 : ∀ x ∈ tl, x ≠ [] := fun x hx => htl x (List.mem_cons_of_mem _ hx)
    have hfind : ∀ x, x ∈ p :: a :: b :: tl → x ≠ [] → ∃ t, map_find m x = some t := by
      intro x hx hne
      obtain ⟨t, ht, _⟩ := hm x hx hne
      exact ⟨t, ht⟩
    have hbody := plan_output_body_eq m p a b steps (hfind a (by simp) ha)
      (fun hp => hfind p (by simp) hp) (fun _ => hfind b (by simp) hb)
      (hr a (by simp)) (hr p (by simp)) (hr b (by simp))
    have hlt : ∀ e ∈ edges_of m steps.length (p, a, b), e.1 < (steps ++ [output_step (p, a, b)]).length := by
      intro e he
      have := edges_of_target_lt m steps.length n0 p a b (hm a (by simp) ha)
        (fun hp => hm p (by simp) hp) (fun _ => hm b (by simp) hb) e he
      simp only [List.length_append, List.length_singleton]
      omega
    rw [List.cons_append, plan_output]
    simp only [hl, ne_eq, not_false_eq_true, if_true, hbody, Option.some_bind]
    rw [ih a b _ hb htl1 (by rw [apply_edges_length]; simp; omega)
      (fun x hx hne => hm x (List.mem_cons_of_mem _ hx) hne)
      (fun x hx => hr x (List.mem_cons_of_mem _ hx))]
    rw [← apply_edges_append_steps _ _ _ hlt, apply_edges_append_edges, apply_edges_length]
    simp [windows, edges_from]

/-- With all its indices inside the vector, the last loop of `plan` performs the calls
`steps[argc - 1 + i + d].add_blocking(s)` for `d = 0 .. n - 1`. -/
theorem plan_join_loop_eq (argc s : Nat) (n i : Nat) (steps : step_list)
    (h : argc - 1 + i + n ≤ steps.length) :
    plan_join_loop argc s n i steps =
      some (apply_edges steps ((List.range n).map fun d => (argc - 1 + i + d, s))) := by
  induction n generalizing i steps with
  | zero => simp [plan_join_loop, apply_edges]
  | succ n ih =>
    have h1 : argc - 1 + i < steps.length := by omega
    rw [plan_join_loop]
    simp only [h1, if_true]
    rw [ih (i + 1) _ (by rw [modify_at_length]; omega)]
    congr 1
    rw [List.range_succ_eq_map]
    simp only [apply_edges, List.map_cons, List.foldl_cons, List.map_map, Nat.add_zero]
    congr 2
    funext d
    simp only [Function.comp, Prod.mk.injEq, and_true]
    omega


theorem first_index_lt (x : Str) (l : List Str) (hx : x ∈ l) : first_index x l < l.length := by
  induction l with
  | nil => simp at hx
  | cons a tl ih =>
    by_cases ha : a = x
    · simp [first_index, ha]
    · have hx1 : x ∈ tl := by
        rcases List.mem_cons.mp hx with h | h
        · exact absurd h.symm ha
        · exact h
      simp [first_index, ha, ih hx1]

theorem first_index_getElem (l : List Str) (hl : l.Nodup) (i : Nat) (x : Str)
    (hi : l[i]? = some x) : first_index x l = i := by
  induction l generalizing i with
  | nil => simp at hi
  | cons a tl ih =>
    have hnd := List.nodup_cons.mp hl
    cases i with
    | zero =>
      simp only [List.getElem?_cons_zero, Option.some.injEq] at hi
      simp [first_index, hi]
    | succ i =>
      simp only [List.getElem?_cons_succ] at hi
      have hx : x ∈ tl := List.getElem?_mem hi
      have ha : a ≠ x := by
        intro h
        rw [h] at hnd
        exact hnd.1 hx
      simp [first_index, ha, ih hnd.2 i hi]

theorem plan_nil : plan [] = some [join_step 0] := by
  decide

theorem ne_nil_of_long (l : List Str) (h3 : ∀ x ∈ l, 3 ≤ x.length) : ∀ x ∈ l, x ≠ [] := by
  intro x hx hnil
  have := h3 x hx
  rw [hnil] at this
  simp at this

theorem plan_cons (a : Str) (tl : List Str) (h3 : ∀ x ∈ a :: tl, 3 ≤ x.length) :
    plan (a :: tl) = some (plan_closed a tl) := by
  have hne := ne_nil_of_long (a :: tl) h3
  have ha : a ≠ [] := hne a (List.mem_cons_self _ _)
  have htl : ∀ x ∈ tl, x ≠ [] := fun x hx => hne x (List.mem_cons_of_mem _ hx)
  have hr : ∀ x, x ∈ ([] : Str) :: a :: tl → ∃ v, replace_end x caf = some v := by
    intro x hx
    rcases List.mem_cons.mp hx with h | h
    · exact ⟨[], by rw [h]; exact replace_end_nil⟩
    · exact replace_end_some x (h3 x h)
  have hinter : plan_intermediate ((a :: tl) ++ [[]]) [] [] [] [] =
      ((windows [] a tl).map intermediate_step, map_after [] 0 (a :: tl)) := by
    rw [List.cons_append, plan_intermediate]
    simp only [List.length_nil, ne_eq, not_true_eq_false, if_false]
    rw [plan_intermediate_windows tl [] a [] [] ha htl]
    simp
  have hm : ∀ x, x ∈ ([] : Str) :: a :: tl → x ≠ [] →
      ∃ t, map_find (map_after [] 0 (a :: tl)) x = some t ∧ t < tl.length + 1 := by
    intro x hx hne
    have hx1 : x ∈ a :: tl := by
      rcases List.mem_cons.mp hx with h | h
      · exact absurd h hne
      · exact h
    exact ⟨first_index x (a :: tl), map_find_after_mem _ x hx1, by
      simpa using first_index_lt x (a :: tl) hx1⟩
  have houtput : plan_output (map_after [] 0 (a :: tl)) ((a :: tl) ++ [[]]) [] []
      ((windows [] a tl).map intermediate_step) =
      some (apply_edges ((windows [] a tl).map intermediate_step ++
        (windows [] a tl).map output_step) (plan_edges a tl)) := by
    rw [List.cons_append, plan_output]
    simp only [List.length_nil, ne_eq, not_true_eq_false, if_false]
    rw [plan_output_windows _ (tl.length + 1) tl [] a _ ha htl
      (by simp [windows_length]) hm hr]
    simp [plan_edges, windows_length]
  unfold plan
  simp only [hinter, houtput, Option.some_bind]
  rw [plan_join_loop_eq]
  · simp [plan_closed, join_edges, apply_edges_length, windows_length, join_step, two_mul]
  · simp [apply_edges_length, windows_length]

theorem mem_edges_from (m : name_map) (ws : List (Str × Str × Str)) (k : Nat) (e : Nat × Nat) :
    e ∈ edges_from m k ws ↔ ∃ i w, ws[i]? = some w ∧ e ∈ edges_of m (k + i) w := by
  induction ws generalizing k with
  | nil => simp [edges_from]
  | cons w ws ih =>
    simp only [edges_from, List.mem_append, ih]
    constructor
    · rintro (h | ⟨i, w1, hw, he⟩)
      · exact ⟨0, w, by simp, by simpa using h⟩
      · exact ⟨i + 1, w1, by simpa using hw, by
          have : k + (i + 1) = k + 1 + i := by omega
          rw [this]
          exact he⟩
    · rintro ⟨i, w1, hw, he⟩
      cases i with
      | zero =>
        simp only [List.getElem?_cons_zero, Option.some.injEq] at hw
        subst hw
        exact Or.inl (by simpa using he)
      | succ i =>
        refine Or.inr ⟨i, w1, by simpa using hw, ?_⟩
        have : k + (i + 1) = k + 1 + i := by omega
        rw [← this]
        exact he

theorem edges_of_snd (m : name_map) (k : Nat) (w : Str × Str × Str) (e : Nat × Nat)
    (he : e ∈ edges_of m k w) : e.2 = k := by
  simp only [edges_of, List.mem_append, List.mem_singleton] at he
  rcases he with (he | he) | he
  · rw [he]
  · split at he
    · simp only [List.mem_singleton] at he
      rw [he]
    · simp at he
  · split at he
    · simp only [List.mem_singleton] at he
      rw [he]
    · simp at he


theorem target_of_after_lt (a : Str) (tl : List Str) (x : Str) :
    target_of (map_after [] 0 (a :: tl)) x < tl.length + 1 := by
  unfold target_of
  rw [map_find_after]
  by_cases hx : x ∈ a :: tl
  · have := first_index_lt x (a :: tl) hx
    simp only [map_find, hx, if_true, Option.getD_some, Nat.zero_add]
    simpa using this
  · simp [map_find, hx]

theorem plan_edges_bounds (a : Str) (tl : List Str) (e : Nat × Nat) (he : e ∈ plan_edges a tl) :
    e.1 < tl.length + 1 ∧ tl.length + 1 ≤ e.2 ∧ e.2 < 2 * (tl.length + 1) := by
  unfold plan_edges at he
  rw [mem_edges_from] at he
  obtain ⟨i, w, hw, hmem⟩ := he
  have hi : i < tl.length + 1 := by
    have := (List.getElem?_eq_some.mp hw).1
    simpa [windows_length] using this
  have h2 := edges_of_snd _ _ _ _ hmem
  refine ⟨?_, by omega, by omega⟩
  simp only [edges_of, List.mem_append, List.mem_singleton] at hmem
  rcases hmem with (h | h) | h
  · rw [h]
    exact target_of_after_lt a tl _
  · split at h
    · simp only [List.mem_singleton] at h
      rw [h]
      exact target_of_after_lt a tl _
    · simp at h
  · split at h
    · simp only [List.mem_singleton] at h
      rw [h]
      exact target_of_after_lt a tl _
    · simp at h

theorem join_edges_filter (n j : Nat) :
    ((join_edges n).filter (fun e => e.1 = j)).map Prod.snd =
      if n ≤ j ∧ j < n + n then [2 * n] else [] := by
  have key : ∀ c lo, ((((List.range c).map fun d => (lo + d, 2 * n)).filter
      (fun e => e.1 = j)).map Prod.snd) = if lo ≤ j ∧ j < lo + c then [2 * n] else [] := by
    intro c lo
    induction c with
    | zero =>
      have : ¬ (lo ≤ j ∧ j < lo + 0) := by omega
      simp [this]
    | succ c ih =>
      rw [List.range_succ, List.map_append, List.filter_append, List.map_append, ih]
      by_cases h1 : lo ≤ j ∧ j < lo + c
      · have h2 : lo ≤ j ∧ j < lo + (c + 1) := by omega
        have h3 : lo + c ≠ j := by omega
        simp [h1, h2, h3]
      · by_cases h3 : lo + c = j
        · have h2 : lo ≤ j ∧ j < lo + (c + 1) := by omega
          simp [h1, h2, h3]
        · have h2 : ¬ (lo ≤ j ∧ j < lo + (c + 1)) := by omega
          simp [h1, h2, h3]
  exact key n n

theorem plan_edges_filter_ge (a : Str) (tl : List Str) (j : Nat) (hj : tl.length + 1 ≤ j) :
    (plan_edges a tl).filter (fun e => e.1 = j) = [] := by
  rw [List.filter_eq_nil_iff]
  intro e he
  have := (plan_edges_bounds a tl e he).1
  simp only [decide_eq_true_eq]
  omega

theorem plan_closed_length (a : Str) (tl : List Str) :
    (plan_closed a tl).length = 2 * (tl.length + 1) + 1 := by
  simp [plan_closed, apply_edges_length, windows_length]
  omega

theorem plan_closed_stage1 (a : Str) (tl : List Str) (j : Nat) (w : Str × Str × Str)
    (hw : (windows [] a tl)[j]? = some w) :
    (plan_closed a tl)[j]? = some
      ⟨some Operation.convert_to_intermediate, w.2.1, w.1, w.2.2,
        ((plan_edges a tl).filter (fun e => e.1 = j)).map Prod.snd, 0, 0⟩ := by
  have hj : j < tl.length + 1 := by
    have := (List.getElem?_eq_some.mp hw).1
    simpa [windows_length] using this
  have hjoin : ¬ (tl.length + 1 ≤ j ∧ j < tl.length + 1 + (tl.length + 1)) := by omega
  unfold plan_closed
  rw [apply_edges_getElem?, join_edges_filter, if_neg hjoin,
    List.getElem?_append_left (by simp [apply_edges_length, windows_length]; omega),
    apply_edges_getElem?,
    List.getElem?_append_left (by simp [windows_length]; omega)]
  simp [hw, intermediate_step]

theorem plan_closed_stage2 (a : Str) (tl : List Str) (i : Nat) (w : Str × Str × Str)
    (hw : (windows [] a tl)[i]? = some w) :
    (plan_closed a tl)[tl.length + 1 + i]? = some
      ⟨some Operation.convert_to_output, (replace_end w.2.1 caf).getD [],
        (replace_end w.1 caf).getD [], (replace_end w.2.2 caf).getD [], [2 * (tl.length + 1)],
        1 + (if w.1.length ≠ 0 then 1 else 0) + (if w.2.2.length ≠ 0 then 1 else 0), 0⟩ := by
  have hi : i < tl.length + 1 := by
    have := (List.getElem?_eq_some.mp hw).1
    simpa [windows_length] using this
  have hjoin : tl.length + 1 ≤ tl.length + 1 + i ∧
      tl.length + 1 + i < tl.length + 1 + (tl.length + 1) := by omega
  unfold plan_closed
  rw [apply_edges_getElem?, join_edges_filter, if_pos hjoin,
    List.getElem?_append_left (by simp [apply_edges_length, windows_length]; omega),
    apply_edges_getElem?, plan_edges_filter_ge a tl _ (by omega),
    List.getElem?_append_right (by simp [windows_length])]
  simp [windows_length, hw, output_step]

theorem plan_closed_join (a : Str) (tl : List Str) :
    (plan_closed a tl)[2 * (tl.length + 1)]? = some (join_step (tl.length + 1)) := by
  have hjoin : ¬ (tl.length + 1 ≤ 2 * (tl.length + 1) ∧
      2 * (tl.length + 1) < tl.length + 1 + (tl.length + 1)) := by omega
  have hlen : (apply_edges ((windows [] a tl).map intermediate_step ++
      (windows [] a tl).map output_step) (plan_edges a tl)).length = 2 * (tl.length + 1) := by
    simp [apply_edges_length, windows_length]
    omega
  unfold plan_closed
  rw [apply_edges_getElem?, join_edges_filter, if_neg hjoin,
    List.getElem?_append_right (by rw [hlen]), hlen]
  simp [join_step]


/-! ## The windows by position -/

theorem item_at_ne_nil (l : List Str) (hne : ∀ x ∈ l, x ≠ []) (i : Nat) (hi : i < l.length) :
    ∃ x, l[i]? = some x ∧ x ≠ [] ∧ x.length ≠ 0 := by
  refine ⟨l[i], List.getElem?_eq_getElem hi, hne _ (List.getElem_mem _), ?_⟩
  have := hne _ (List.getElem_mem hi)
  simpa using this

theorem window_at (a : Str) (tl : List Str) (hne : ∀ x ∈ a :: tl, x ≠ []) (i : Nat)
    (hi : i < tl.length + 1) :
    ∃ p x n, (windows [] a tl)[i]? = some (p, x, n) ∧ (a :: tl)[i]? = some x ∧
      (p.length ≠ 0 ↔ 0 < i) ∧ (n.length ≠ 0 ↔ i + 1 < tl.length + 1) ∧
      (∀ i0, i = i0 + 1 → (a :: tl)[i0]? = some p) ∧
      (i + 1 < tl.length + 1 → (a :: tl)[i + 1]? = some n) := by
  obtain ⟨x, hx, _, _⟩ := item_at_ne_nil (a :: tl) hne i (by simpa using hi)
  refine ⟨(([] : Str) :: a :: tl)[i]?.getD [], x, (tl ++ [[]])[i]?.getD [], ?_, hx, ?_, ?_, ?_, ?_⟩
  · rw [windows_getElem? tl [] a i hi, hx]
    rfl
  · cases i with
    | zero => simp
    | succ i0 =>
      obtain ⟨y, hy, _, hyl⟩ := item_at_ne_nil (a :: tl) hne i0 (by simp; omega)
      rw [List.getElem?_cons_succ, hy]
      simpa using hyl
  · by_cases hlt : i < tl.length
    · obtain ⟨y, hy, _, hyl⟩ := item_at_ne_nil tl
        (fun z hz => hne z (List.mem_cons_of_mem _ hz)) i hlt
      rw [List.getElem?_append_left hlt, hy]
      simp only [Option.getD_some]
      constructor
      · intro _
        omega
      · intro _
        exact hyl
    · have hi2 : i = tl.length := by omega
      subst hi2
      simp
  · intro i0 hi0
    subst hi0
    obtain ⟨y, hy, _, _⟩ := item_at_ne_nil (a :: tl) hne i0 (by simp; omega)
    rw [List.getElem?_cons_succ, hy]
    rfl
  · intro hlt
    have hlt1 : i < tl.length := by omega
    obtain ⟨y, hy, _, _⟩ := item_at_ne_nil tl
      (fun z hz => hne z (List.mem_cons_of_mem _ hz)) i hlt1
    rw [List.getElem?_append_left hlt1, List.getElem?_cons_succ, hy]
    rfl

theorem target_at (l : List Str) (hnd : l.Nodup) (i : Nat) (x : Str) (hx : l[i]? = some x) :
    target_of (map_after [] 0 l) x = i := by
  rw [target_of_after_mem l x (List.getElem?_mem hx)]
  exact first_index_getElem l hnd i x hx

theorem window_edges (a : Str) (tl : List Str) (hne : ∀ x ∈ a :: tl, x ≠ [])
    (hnd : (a :: tl).Nodup) (i k : Nat) (w : Str × Str × Str)
    (hw : (windows [] a tl)[i]? = some w) :
    edges_of (map_after [] 0 (a :: tl)) k w =
      [(i, k)] ++ (if 0 < i then [(i - 1, k)] else [])
        ++ (if i + 1 < tl.length + 1 then [(i + 1, k)] else []) := by
  have hi : i < tl.length + 1 := by
    have := (List.getElem?_eq_some.mp hw).1
    simpa [windows_length] using this
  obtain ⟨p, x, n, hw1, hx, hp, hn, hpi, hni⟩ := window_at a tl hne i hi
  rw [hw1] at hw
  cases hw
  have hmid := target_at (a :: tl) hnd i x hx
  unfold edges_of
  simp only [hmid]
  congr 1
  · congr 1
    by_cases h0 : 0 < i
    · obtain ⟨i0, hi0⟩ : ∃ i0, i = i0 + 1 := ⟨i - 1, by omega⟩
      have := target_at (a :: tl) hnd i0 p (hpi i0 hi0)
      have hpl : p.length ≠ 0 := hp.mpr h0
      simp only [hpl, ne_eq, not_false_eq_true, if_true, h0, this]
      congr 2
      omega
    · have hpl : ¬ p.length ≠ 0 := fun h => h0 (hp.mp h)
      simp only [hpl, h0, if_false]
  · by_cases h1 : i + 1 < tl.length + 1
    · have := target_at (a :: tl) hnd (i + 1) n (hni h1)
      have hnl : n.length ≠ 0 := hn.mpr h1
      simp only [hnl, ne_eq, not_false_eq_true, if_true, h1, this]
    · have hnl : ¬ n.length ≠ 0 := fun h => h1 (hn.mp h)
      simp only [hnl, h1, if_false]


/-! ## Names of one or two characters -/

/-- C6, amended: for every `N >= 0` and every sequence of `N` items of at least three bytes
each, `plan` returns a step list of exactly `2N + 1` steps. -/
theorem plan_length (items : List Str) (h3 : ∀ x ∈ items, 3 ≤ x.length) :
    ∃ steps, plan items = some steps ∧ steps.length = 2 * items.length + 1 := by
  cases items with
  | nil => exact ⟨_, plan_nil, rfl⟩
  | cons a tl =>
    refine ⟨_, plan_cons a tl h3, ?_⟩
    rw [plan_closed_length]
    rfl

theorem plan_length_witness :
    ∃ steps, plan [track_a, track_b] = some steps ∧
      steps.length = 2 * [track_a, track_b].length + 1 :=
  plan_length [track_a, track_b] (by decide)

/-- C6 as stated fails on an empty item and on a short item. For the single item `""`
(`N = 1`) the two loops of `plan` create no step at all, the vector holds the join step
only, and the last loop then indexes `steps[1]`, past its end. For the single item `"a"`
the second loop calls `replace_end("a", "caf")`, which writes outside the string. In
both cases no list of `2 * 1 + 1` steps is returned. -/
theorem plan_length_empty_or_short_item :
    plan_output (plan_intermediate [[], []] [] [] [] []).2 [[], []] [] []
        (plan_intermediate [[], []] [] [] [] []).1 = some [] ∧
      (¬ ∃ steps, plan [[]] = some steps ∧ steps.length = 2 * [([] : Str)].length + 1) ∧
      (¬ ∃ steps, plan [['a']] = some steps ∧ steps.length = 2 * [['a']].length + 1) := by
  refine ⟨by decide, ?_, ?_⟩
  · rintro ⟨steps, h, _⟩
    have hnone : plan [[]] = none := by decide
    rw [hnone] at h
    cases h
  · rintro ⟨steps, h, _⟩
    have hnone : plan [['a']] = none := by decide
    rw [hnone] at h
    cases h

/-- C5, amended: for every sequence of `N >= 0` items of at least three bytes each, the
last step of the list returned by `plan` (index `2N`) is the join step: it has no
operation and `required = N`; it occurs exactly once in the successor list of each of the
`N` stage-2 steps and in no other step's successor list. -/
theorem join_step_last (items : List Str) (h3 : ∀ x ∈ items, 3 ≤ x.length) :
    ∃ steps, plan items = some steps ∧ steps.length = 2 * items.length + 1 ∧
      steps.getLast? = some ⟨none, [], [], [], [], items.length, 0⟩ ∧
      (∀ i, i < items.length → ∃ st, steps[items.length + i]? = some st ∧
        st._operation = some Operation.convert_to_output ∧
        st._blocking.count (2 * items.length) = 1) ∧
      (∀ k st, steps[k]? = some st → ¬ (items.length ≤ k ∧ k < 2 * items.length) →
        2 * items.length ∉ st._blocking) := by
  have hne := ne_nil_of_long items h3
  cases items with
  | nil =>
    refine ⟨_, plan_nil, rfl, rfl, ?_, ?_⟩
    · intro i hi
      simp at hi
    · intro k st hk _
      cases k with
      | zero =>
        simp only [List.getElem?_cons_zero, Option.some.injEq] at hk
        subst hk
        simp [join_step]
      | succ k => simp at hk
  | cons a tl =>
    have hlen := plan_closed_length a tl
    refine ⟨_, plan_cons a tl h3, hlen, ?_, ?_, ?_⟩
    · rw [List.getLast?_eq_getElem?, hlen]
      exact plan_closed_join a tl
    · intro i hi
      have hi1 : i < tl.length + 1 := by simpa using hi
      obtain ⟨p, x, n, hw, _⟩ := window_at a tl hne i hi1
      exact ⟨_, plan_closed_stage2 a tl i _ hw, rfl, by simp⟩
    · intro k st hk hnot
      simp only [List.length_cons] at hnot ⊢
      have hklt : k < 2 * (tl.length + 1) + 1 := by
        have := (List.getElem?_eq_some.mp hk).1
        rwa [hlen] at this
      by_cases hk1 : k < tl.length + 1
      · obtain ⟨p, x, n, hw, _⟩ := window_at a tl hne k hk1
        rw [plan_closed_stage1 a tl k _ hw] at hk
        cases hk
        intro hmem
        simp only [List.mem_map, List.mem_filter] at hmem
        obtain ⟨e, ⟨he, _⟩, h2⟩ := hmem
        have := (plan_edges_bounds a tl e he).2.2
        omega
      · have hk2 : k = 2 * (tl.length + 1) := by omega
        subst hk2
        rw [plan_closed_join a tl] at hk
        cases hk
        simp [join_step]

theorem join_step_last_witness :
    ∃ steps, plan [track_a, track_b] = some steps ∧
      steps.length = 2 * [track_a, track_b].length + 1 ∧
      steps.getLast? = some ⟨none, [], [], [], [], [track_a, track_b].length, 0⟩ ∧
      (∀ i, i < [track_a, track_b].length → ∃ st,
        steps[[track_a, track_b].length + i]? = some st ∧
        st._operation = some Operation.convert_to_output ∧
        st._blocking.count (2 * [track_a, track_b].length) = 1) ∧
      (∀ k st, steps[k]? = some st →
        ¬ ([track_a, track_b].length ≤ k ∧ k < 2 * [track_a, track_b].length) →
        2 * [track_a, track_b].length ∉ st._blocking) :=
  join_step_last [track_a, track_b] (by decide)

/-- C5 as stated fails on an empty item and on a short item. For the items `"abc", ""`
(`N = 2`) the loops create one stage-1 and one stage-2 step, the join step is element 2
of the vector, and the last loop calls `add_blocking` on `steps[2]` (the join step
itself) and then on `steps[3]`, past the end. For the single item `"a"` the second loop
calls `replace_end("a", "caf")`, which writes outside the string. In both cases no list
is returned whose stage-2 steps each hold the join step once. -/
theorem join_step_last_empty_or_short_item :
    (plan_output (plan_intermediate [['a', 'b', 'c'], [], []] [] [] [] []).2
        [['a', 'b', 'c'], [], []] [] []
        (plan_intermediate [['a', 'b', 'c'], [], []] [] [] [] []).1).map List.length = some 2 ∧
      (¬ ∃ steps, plan [['a', 'b', 'c'], []] = some steps ∧
        ∀ i, i < 2 → ∃ st, steps[2 + i]? = some st ∧ st._blocking.count (2 * 2) = 1) ∧
      (¬ ∃ steps, plan [['a']] = some steps ∧
        ∀ i, i < 1 → ∃ st, steps[1 + i]? = some st ∧ st._blocking.count (2 * 1) = 1) := by
  refine ⟨by decide, ?_, ?_⟩
  · rintro ⟨steps, h, _⟩
    have hnone : plan [['a', 'b', 'c'], []] = none := by decide
    rw [hnone] at h
    cases h
  · rintro ⟨steps, h, _⟩
    have hnone : plan [['a']] = none := by decide
    rw [hnone] at h
    cases h

/-- C3, amended: for every sequence of `N >= 1` pairwise distinct items of at least three
bytes each and all positions `i, j < N`, the stage-2 step of item `i` (index `N + i`) is
in the successor list of the stage-1 step of item `j` (index `j`) if and only if `j` is
`i - 1`, `i` or `i + 1`. -/
theorem stage2_successor_of_neighbours (items : List Str) (h3 : ∀ x ∈ items, 3 ≤ x.length)
    (hnd : items.Nodup) (i j : Nat) (hi : i < items.length) (hj : j < items.length) :
    ∃ steps s1, plan items = some steps ∧ steps[j]? = some s1 ∧
      s1._operation = some Operation.convert_to_intermediate ∧
      (items.length + i ∈ s1._blocking ↔ (j + 1 = i ∨ j = i ∨ j = i + 1)) := by
  have hne := ne_nil_of_long items h3
  cases items with
  | nil => simp at hi
  | cons a tl =>
    have hi1 : i < tl.length + 1 := by simpa using hi
    have hj1 : j < tl.length + 1 := by simpa using hj
    obtain ⟨p, x, n, hw, _⟩ := window_at a tl hne j hj1
    obtain ⟨pi, xi, ni, hwi, _⟩ := window_at a tl hne i hi1
    refine ⟨_, _, plan_cons a tl h3, plan_closed_stage1 a tl j _ hw, rfl, ?_⟩
    simp only [List.length_cons, List.mem_map, List.mem_filter, decide_eq_true_eq]
    constructor
    · rintro ⟨e, ⟨he, he1⟩, he2⟩
      unfold plan_edges at he
      rw [mem_edges_from] at he
      obtain ⟨i0, w0, hw0, hmem⟩ := he
      have hsnd := edges_of_snd _ _ _ _ hmem
      have hi0 : i0 = i := by omega
      subst hi0
      rw [window_edges a tl hne hnd i0 _ w0 hw0] at hmem
      simp only [List.mem_append, List.mem_singleton] at hmem
      rcases hmem with (h | h) | h
      · rw [h] at he1
        simp only at he1
        omega
      · split at h
        · simp only [List.mem_singleton] at h
          rw [h] at he1
          simp only at he1
          omega
        · simp at h
      · split at h
        · simp only [List.mem_singleton] at h
          rw [h] at he1
          simp only at he1
          omega
        · simp at h
    · intro hcase
      refine ⟨(j, tl.length + 1 + i), ⟨?_, rfl⟩, rfl⟩
      unfold plan_edges
      rw [mem_edges_from]
      refine ⟨i, _, hwi, ?_⟩
      rw [window_edges a tl hne hnd i _ _ hwi]
      simp only [List.mem_append, List.mem_singleton]
      rcases hcase with h | h | h
      · refine Or.inl (Or.inr ?_)
        have h0 : 0 < i := by omega
        have : j = i - 1 := by omega
        simp [h0, this]
      · exact Or.inl (Or.inl (by rw [h]))
      · refine Or.inr ?_
        have h1 : i + 1 < tl.length + 1 := by omega
        simp [h1, h]

theorem stage2_successor_of_neighbours_witness :
    ∃ steps s1, plan [track_a, track_b, track_c] = some steps ∧ steps[2]? = some s1 ∧
      s1._operation = some Operation.convert_to_intermediate ∧
      ([track_a, track_b, track_c].length + 1 ∈ s1._blocking ↔ (2 + 1 = 1 ∨ 2 = 1 ∨ 2 = 1 + 1)) :=
  stage2_successor_of_neighbours [track_a, track_b, track_c] (by decide) (by decide) 1 2
    (by decide) (by decide)

/-- C3 as stated fails on a repeated item, on an empty item and on a short item. For the
items `"xxx", "xxx"` the map `steps_by_name` sends the name to the first stage-1 step,
so the stage-2 step of item 0 (index 2) is not in the successor list of the stage-1 step
of item 1 although `1 = 0 + 1`. For the items `"", "xxx"` the last loop of `plan` indexes
past the end of the vector, and for the items `"a", "b"` the second loop calls
`replace_end("a", "caf")`, which writes outside the string; no step list is returned. -/
theorem stage2_successor_repeated_empty_or_short_item :
    (¬ ∃ steps s1, plan [['x', 'x', 'x'], ['x', 'x', 'x']] = some steps ∧
        steps[1]? = some s1 ∧ (2 + 0 ∈ s1._blocking ↔ (1 + 1 = 0 ∨ 1 = 0 ∨ 1 = 0 + 1))) ∧
      (¬ ∃ steps s1, plan [[], ['x', 'x', 'x']] = some steps ∧
        steps[1]? = some s1 ∧ (2 + 1 ∈ s1._blocking ↔ (1 + 1 = 1 ∨ 1 = 1 ∨ 1 = 1 + 1))) ∧
      (¬ ∃ steps s1, plan [['a'], ['b']] = some steps ∧
        steps[1]? = some s1 ∧ (2 + 1 ∈ s1._blocking ↔ (1 + 1 = 1 ∨ 1 = 1 ∨ 1 = 1 + 1))) := by
  refine ⟨?_, ?_, ?_⟩
  · rintro ⟨steps, s1, hp, hs, hiff⟩
    have hplan : (plan [['x', 'x', 'x'], ['x', 'x', 'x']]).map
        (fun l => l.map step._blocking) = some [[2, 2, 3, 3], [], [4], [4], []] := by decide
    rw [hp] at hplan
    simp only [Option.map_some', Option.some.injEq] at hplan
    have h1 : (steps.map step._blocking)[1]? = some s1._blocking := by
      rw [List.getElem?_map, hs]
      rfl
    rw [hplan] at h1
    simp only [List.getElem?_cons_succ, List.getElem?_cons_zero, Option.some.injEq] at h1
    rw [← h1] at hiff
    simp at hiff
  · rintro ⟨steps, s1, hp, _⟩
    have hnone : plan [[], ['x', 'x', 'x']] = none := by decide
    rw [hnone] at hp
    cases hp
  · rintro ⟨steps, s1, hp, _⟩
    have hnone : plan [['a'], ['b']] = none := by decide
    rw [hnone] at hp
    cases hp


/-! ## Signals received by each step -/

/-- C1, amended: for every step with required count `r` and arrived count `a`,
`step::unblock` sets `arrived` to `a + 1` (in `size_t`), changes nothing else, and returns
true if and only if the new value is at least `r`; whenever `a < r` this is the same as
the new value being equal to `r`. -/
theorem unblock_reports_threshold (s : step) :
    s.unblock.1 = { s with _unblocked := (s._unblocked + 1) % SIZE_MAX1 } ∧
      (s.unblock.2 = true ↔ s._blockers ≤ (s._unblocked + 1) % SIZE_MAX1) ∧
      (s._unblocked < s._blockers ∧ s._blockers < SIZE_MAX1 →
        s.unblock.1._unblocked = s._unblocked + 1 ∧
          (s.unblock.2 = true ↔ s._unblocked + 1 = s._blockers)) := by
  refine ⟨rfl, ?_, ?_⟩
  · simp [step.unblock]
  · rintro ⟨hlt, hmax⟩
    have hmod : (s._unblocked + 1) % SIZE_MAX1 = s._unblocked + 1 :=
      Nat.mod_eq_of_lt (by omega)
    simp only [step.unblock, hmod, decide_eq_true_eq, true_and]
    constructor <;> intro _ <;> omega

theorem unblock_reports_threshold_witness :
    (step.unblock ⟨none, [], [], [], [], 3, 2⟩).1._unblocked = 2 + 1 ∧
      ((step.unblock ⟨none, [], [], [], [], 3, 2⟩).2 = true ↔ 2 + 1 = 3) :=
  (unblock_reports_threshold ⟨none, [], [], [], [], 3, 2⟩).2.2 ⟨by decide, by decide⟩

/-- C1 as stated fails: a step with `required = 1` that has already arrived once gets
`arrived = 2` from `unblock`, which still returns true although `2` is not `1`. -/
theorem unblock_true_past_required :
    ¬ ((step.unblock ⟨none, [], [], [], [], 1, 1⟩).2 = true ↔
      (step.unblock ⟨none, [], [], [], [], 1, 1⟩).1._unblocked = 1) := by
  decide

/-! ## The drain loop of the worker -/

/-- C9: for every worker-local buffer `b` and every number `k` of backchannel slots free
during the drain, the drain loop writes exactly the first `min |b| k` entries of `b` to
the backchannel in buffer order and leaves the remaining entries in the buffer in their
original order; when entries remain, the next non-blocking allocate fails; nothing else
in the context changes. -/
theorem worker_drain_spec (c : context) (b : List Nat) :
    worker_drain c b =
        ({ c with backchannel :=
            { c.backchannel with
              allocated := c.backchannel.allocated
                + min b.length (c.backchannel.max_depth - c.backchannel.allocated)
              messages := c.backchannel.messages
                ++ b.take (min b.length (c.backchannel.max_depth - c.backchannel.allocated)) } },
          b.drop (min b.length (c.backchannel.max_depth - c.backchannel.allocated))) ∧
      ((worker_drain c b).2 ≠ [] →
        message_queue_message_alloc (worker_drain c b).1.backchannel = none) ∧
      b.take (min b.length (c.backchannel.max_depth - c.backchannel.allocated))
        ++ (worker_drain c b).2 = b := by
  induction b generalizing c with
  | nil =>
    obtain ⟨d, ⟨md, al, ms⟩⟩ := c
    simp [worker_drain]
  | cons x rest ih =>
    obtain ⟨d, ⟨md, al, ms⟩⟩ := c
    by_cases hfree : al < md
    · have hstep : worker_drain ⟨d, ⟨md, al, ms⟩⟩ (x :: rest) =
          worker_drain ⟨d, ⟨md, al + 1, ms ++ [x]⟩⟩ rest := by
        simp [worker_drain, context.unblock, message_queue_message_alloc, message_queue_write,
          hfree]
      have hmin : min (rest.length + 1) (md - al) = min rest.length (md - (al + 1)) + 1 := by
        omega
      obtain ⟨h1, h2, h3⟩ := ih ⟨d, ⟨md, al + 1, ms ++ [x]⟩⟩
      simp only at h1 h2 h3
      rw [hstep]
      simp only [List.length_cons, hmin, List.take_succ_cons, List.drop_succ_cons]
      refine ⟨?_, h2, ?_⟩
      · rw [h1]
        simp only [List.append_assoc, List.singleton_append, Prod.mk.injEq, and_true,
          context.mk.injEq, message_queue.mk.injEq, true_and]
        omega
      · simp only [List.cons_append, List.cons.injEq, true_and]
        exact h3
    · have hstep : worker_drain ⟨d, ⟨md, al, ms⟩⟩ (x :: rest) = (⟨d, ⟨md, al, ms⟩⟩, x :: rest) := by
        simp [worker_drain, context.unblock, message_queue_message_alloc, hfree]
      have hmin : min (rest.length + 1) (md - al) = 0 := by omega
      rw [hstep]
      simp only [List.length_cons, hmin]
      simp [message_queue_message_alloc, hfree]

/-! ## replace_end on short names -/

/-- C10 fails on the one-character item `"a"`: `replace_end("a", "caf")` computes
`offset = 1 - 3` in `size_t` and writes `'c'` at index `2^64 - 2` and `'a'` at index
`2^64 - 1`, both outside the one-character string (and `'f'` at index 0); the call has no
defined value, and `plan`, which makes it at line 216, returns no step list. -/
theorem replace_end_writes_outside_short_name :
    replace_end_writes ['a'] caf =
        [(18446744073709551614, 'c'), (18446744073709551615, 'a'), (0, 'f')] ∧
      replace_end_in_bounds ['a'] caf = false ∧
      replace_end ['a'] caf = none ∧
      plan [['a']] = none := by
  decide

/-! ## The driver and the workers -/

/-- C7 fails for no items: `plan` returns the join step alone, with `required = 0`; the
seed loop of the driver (lines 274-281) tests only `blockers()` and queues it to dispatch;
the worker that reads it invokes its empty operation and the process terminates. The pump
loop (line 283) does test `operation()` before queueing. -/
theorem join_step_dispatched_without_items :
    plan [] = some [⟨none, [], [], [], [], 0, 0⟩] ∧
      ((machine.init 1 [⟨none, [], [], [], [], 0, 0⟩]).run
          [thread.driver, thread.driver, thread.driver]).map
        (fun m => (m.ctx.dispatch.messages, m.driver)) = some ([some 0], driver_pc.seed 1) ∧
      ((machine.init 1 [⟨none, [], [], [], [], 0, 0⟩]).run
          [thread.driver, thread.driver, thread.driver, thread.worker 0, thread.worker 0]).map
        (fun m => (m.terminated, m.invoked)) = some (true, []) := by
  decide


/-- C8 fails for two workers and three items: after `deadlock_schedule` the driver waits in
the blocking backchannel read, both workers wait in the blocking dispatch read, both
mailboxes are empty, worker 0 still holds the ready stage-2 step of `b.wav` (step 4) in
its local buffer, and the join step has 2 of its 3 signals; no thread can move. -/
theorem deadlock_two_workers_three_items :
    ((plan [track_a, track_b, track_c]).bind fun steps =>
        (machine.init 2 steps).run deadlock_schedule).map
      (fun m => (m.stuck, m.driver, m.workers, m.ctx.dispatch.messages,
        m.ctx.backchannel.messages, m.steps.map step._unblocked,
        (m.step thread.driver).isNone, (m.step (thread.worker 0)).isNone,
        (m.step (thread.worker 1)).isNone)) =
      some (true, driver_pc.pump, [⟨worker_pc.wait, [4]⟩, ⟨worker_pc.wait, []⟩], [], [],
        [0, 0, 0, 2, 3, 2, 2], true, true, true) := by
  rfl


end Producer
